import Mathlib

set_option maxHeartbeats 1000000

/-!
Verification development for the cattree repository.

The program renders a directory subtree as a textual tree diagram with
optional file contents, after applying several filtering mechanisms:
a fixed extension allow-list, a fixed name blacklist, user include/exclude
regular expressions, an only-paths allow-list and exclusion rules derived
from gitignore files.

This file gives a shallow embedding of `src/cattree/cattree.py` and
`src/cattree/gitignore_parsing.py`:
  * a small regular-expression engine modelling the subset of Python's
    `re` module syntax that the program generates and uses
    (`re.search` / `re.match` booleans),
  * the gitignore pattern compiler and ignore-set builder,
  * the path filter `_matches_pattern`, the stack-based DFS traversal
    `traverse_directory_dfs`, `_is_path_allowed`, `format_file_content`
    and `generate_cattree`,
over an explicit finite file-tree data type.  File systems are modelled
by the inductive `FSTree`; a file whose byte content cannot be decoded
as UTF-8 text is modelled by a `none` content (reading it raises, which
the embedding renders as `Except.error`).
-/

/-! ### A boolean regular-expression engine (model of the `re` module) -/

/-- Regular expression abstract syntax: the subset of Python `re` syntax
produced by the program (literals, escaped literals, `.`, classes,
anchors, grouping, alternation, star/plus/option). -/
inductive RE where
  | eps : RE
  | ch : Char → RE
  | anyc : RE
  | cls : Bool → List Char → RE
  | bol : RE
  | eol : RE
  | seq : RE → RE → RE
  | alt : RE → RE → RE
  | star : RE → RE

/-- Size of a regex term, used to compute an evaluation fuel bound. -/
def reSize : RE → Nat
  | .eps => 1
  | .ch _ => 1
  | .anyc => 1
  | .cls _ _ => 1
  | .bol => 1
  | .eol => 1
  | .seq a b => reSize a + reSize b + 1
  | .alt a b => reSize a + reSize b + 1
  | .star a => reSize a + 1

/-- Backtracking matcher in continuation style.  `reRun fuel r s i k` is
true when some way of matching `r` against `s` starting at index `i`
reaches a continuation index accepted by `k`.  `^` matches only at index
0 and `$` at the end of the string (or just before a final newline),
mirroring `re` without MULTILINE.  `.` does not match a newline. -/
def reRun : Nat → RE → List Char → Nat → (Nat → Bool) → Bool
  | 0, _, _, _, _ => false
  | fuel+1, r, s, i, k =>
    match r with
    | .eps => k i
    | .ch c =>
      match s.get? i with
      | some d => if d = c then k (i+1) else false
      | none => false
    | .anyc =>
      match s.get? i with
      | some d => if d = '\n' then false else k (i+1)
      | none => false
    | .cls neg cs =>
      match s.get? i with
      | some d => if (cs.contains d) = neg then false else k (i+1)
      | none => false
    | .bol => if i = 0 then k i else false
    | .eol =>
      if i = s.length then k i
      else if i + 1 = s.length ∧ s.get? i = some '\n' then k i else false
    | .seq a b => reRun fuel a s i (fun j => reRun fuel b s j k)
    | .alt a b => reRun fuel a s i k || reRun fuel b s i k
    | .star a =>
      k i || reRun fuel a s i (fun j => if i < j then reRun fuel (.star a) s j k else false)

/-- Consume trailing `*`, `?`, `+` repetition operators after an atom. -/
def parsePostfix : RE → List Char → RE × List Char
  | r, '*' :: rest => parsePostfix (.star r) rest
  | r, '?' :: rest => parsePostfix (.alt r .eps) rest
  | r, '+' :: rest => parsePostfix (.seq r (.star r)) rest
  | r, s => (r, s)

/-- Parse the body of a character class up to the closing bracket.
Ranges are not part of the generated language and are refused. -/
def parseClsBody : List Char → List Char → Option (List Char × List Char)
  | acc, ']' :: rest => some (acc.reverse, rest)
  | acc, '\\' :: c :: rest => parseClsBody (c :: acc) rest
  | _, '-' :: _ => none
  | acc, c :: rest => parseClsBody (c :: acc) rest
  | _, [] => none

/-- Grammar level for the fueled recursive-descent regex parser. -/
inductive PLev where
  | altL : PLev
  | catL : PLev
  | repL : PLev
  | atomL : PLev

/-- Fueled recursive-descent parser for the regex string syntax:
alternation, concatenation, repetition, atoms (groups, classes, escaped
punctuation, `.`, `^`, `$`, literal characters).  Escapes of
alphanumeric characters (character-class escapes such as a digit class)
are outside the modelled subset and are refused. -/
def parseRE : Nat → PLev → List Char → Option (RE × List Char)
  | 0, _, _ => none
  | fuel+1, .altL, s =>
    match parseRE fuel .catL s with
    | none => none
    | some (r, rest) =>
      match rest with
      | '|' :: rest2 =>
        match parseRE fuel .altL rest2 with
        | none => none
        | some (r2, rest3) => some (.alt r r2, rest3)
      | _ => some (r, rest)
  | fuel+1, .catL, s =>
    match s with
    | [] => some (.eps, [])
    | ')' :: _ => some (.eps, s)
    | '|' :: _ => some (.eps, s)
    | _ =>
      match parseRE fuel .repL s with
      | none => none
      | some (r, rest) =>
        match parseRE fuel .catL rest with
        | none => none
        | some (r2, rest2) => some (.seq r r2, rest2)
  | fuel+1, .repL, s =>
    match parseRE fuel .atomL s with
    | none => none
    | some (r, rest) => some (parsePostfix r rest)
  | fuel+1, .atomL, s =>
    match s with
    | '(' :: rest =>
      match parseRE fuel .altL rest with
      | some (r, ')' :: rest2) => some (r, rest2)
      | _ => none
    | '[' :: '^' :: rest =>
      match parseClsBody [] rest with
      | some (cs, rest2) => some (.cls true cs, rest2)
      | none => none
    | '[' :: rest =>
      match parseClsBody [] rest with
      | some (cs, rest2) => some (.cls false cs, rest2)
      | none => none
    | '\\' :: c :: rest => if c.isAlphanum then none else some (.ch c, rest)
    | '.' :: rest => some (.anyc, rest)
    | '^' :: rest => some (.bol, rest)
    | '$' :: rest => some (.eol, rest)
    | '*' :: _ => none
    | '?' :: _ => none
    | '+' :: _ => none
    | ')' :: _ => none
    | '|' :: _ => none
    | [] => none
    | c :: rest => some (.ch c, rest)

/-- Parse a whole regex source string. -/
def parseRegex (p : String) : Option RE :=
  match parseRE (8 * p.length + 32) .altL p.data with
  | some (r, []) => some r
  | _ => none

/-- Try to match regex `r` at index `i` of `s` (prefix match). -/
def reMatchAt (r : RE) (s : List Char) (i : Nat) : Bool :=
  reRun ((reSize r + 2) * (s.length + 2) + 16) r s i (fun _ => true)

/-- Model of the boolean value of Python `re.search(pat, s)`. -/
def reSearch (pat s : String) : Bool :=
  match parseRegex pat with
  | some r => (List.range (s.data.length + 1)).any (fun i => reMatchAt r s.data i)
  | none => false

/-- Model of the boolean value of Python `re.match(pat, s)`
(anchored at the start of the string only). -/
def reMatchB (pat s : String) : Bool :=
  match parseRegex pat with
  | some r => reMatchAt r s.data 0
  | none => false


/-! ### String utilities (models of the Python string operations used) -/

/-- Join a list of strings with a separator (model of `str.join`). -/
def joinWith (sep : String) : List String → String
  | [] => ""
  | [x] => x
  | x :: y :: xs => x ++ sep ++ joinWith sep (y :: xs)

/-- Concatenate a list of strings (model of `"".join`). -/
def joinAll : List String → String
  | [] => ""
  | x :: xs => x ++ joinAll xs

/-- Python whitespace characters recognised by `\s` / `str.strip`
(ASCII subset, which is all the program ever feeds it). -/
def isPyWs (c : Char) : Bool :=
  c = ' ' || c = '\t' || c = '\n' || c = '\x0d' || c = '\x0b' || c = '\x0c'

/-- Replace every run of whitespace by a single space: the kernel of
`re.sub(r"\s+", " ", line)`.  The boolean records whether the previous
character was part of a whitespace run already emitted. -/
def collapseWsAux : Bool → List Char → List Char
  | _, [] => []
  | prevWs, c :: rest =>
    if isPyWs c then
      if prevWs then collapseWsAux true rest else ' ' :: collapseWsAux true rest
    else c :: collapseWsAux false rest

/-- Strip leading and trailing whitespace (model of `str.strip()`). -/
def stripWs (s : List Char) : List Char :=
  ((s.dropWhile isPyWs).reverse.dropWhile isPyWs).reverse

/-- Model of `re.sub(r"\s+", " ", line).strip()` used by compact mode. -/
def compactLine (s : String) : String :=
  String.mk (stripWs (collapseWsAux false s.data))

/-- Model of `str.strip()` on a whole string. -/
def pyStrip (s : String) : String :=
  String.mk (stripWs s.data)

/-- Model of `str.strip("|")`: drop pipe characters from both ends. -/
def stripPipes (s : String) : String :=
  String.mk (((s.data.dropWhile (fun c => c = '|')).reverse.dropWhile (fun c => c = '|')).reverse)

/-- Model of `str.lstrip("/")`. -/
def lstripSlash (s : String) : String :=
  String.mk (s.data.dropWhile (fun c => c = '/'))

/-- Model of `str.rstrip("/")`. -/
def rstripSlash (s : String) : String :=
  String.mk ((s.data.reverse.dropWhile (fun c => c = '/')).reverse)

/-- Model of `str.endswith("/")`. -/
def endsWithSlash (s : String) : Bool :=
  s.data.getLast? = some '/'

/-- Model of `str.startswith("/")`. -/
def startsWithSlash (s : String) : Bool :=
  s.data.head? = some '/'

/-- Model of `str.startswith("#")`. -/
def startsWithHash (s : String) : Bool :=
  s.data.head? = some '#'

/-- Fueled kernel of `str.replace`: scan left to right, replacing each
non-overlapping occurrence of `pat` (assumed non-empty) by `rep`. -/
def replaceAux : Nat → List Char → List Char → List Char → List Char
  | 0, s, _, _ => s
  | _, [], _, _ => []
  | fuel+1, c :: s, pat, rep =>
    if pat ≠ [] ∧ pat.isPrefixOf (c :: s) then
      rep ++ replaceAux fuel ((c :: s).drop pat.length) pat rep
    else c :: replaceAux fuel s pat rep

/-- Model of Python `str.replace(pat, rep)` (for non-empty `pat`). -/
def replaceStr (s pat rep : String) : String :=
  String.mk (replaceAux s.data.length s.data pat.data rep.data)

/-- The characters escaped by `re.escape` (Python 3.7+). -/
def reEscapeSpecial : List Char :=
  ['(', ')', '[', ']', '\x7b', '\x7d', '?', '*', '+', '-', '|', '^', '$',
   '\\', '.', '&', '~', '#', ' ', '\t', '\n', '\x0d', '\x0b', '\x0c']

/-- Model of `re.escape`. -/
def reEscape (s : String) : String :=
  String.mk (s.data.foldr (fun c acc => if reEscapeSpecial.contains c then '\\' :: c :: acc else c :: acc) [])

/-- Split a path string on slashes into its segments. -/
def splitSlashAux : List Char → List Char → List String
  | acc, [] => [String.mk acc.reverse]
  | acc, '/' :: rest => String.mk acc.reverse :: splitSlashAux [] rest
  | acc, c :: rest => splitSlashAux (c :: acc) rest

/-- Path segments of a relative path string such as "src/a.py". -/
def splitSlash (s : String) : List String :=
  splitSlashAux [] s.data


/-! ### Gitignore pattern compilation (`gitignore_parsing.py`) -/

/-- Model of `_parse_gitignore` applied to the lines of one file: keep
lines whose stripped form is non-empty and that do not start with a hash
(the test is on the unstripped line, as in the source), and return the
stripped lines in order. -/
def parseGitignoreLines (ls : List String) : List String :=
  (ls.filter (fun l => pyStrip l ≠ "" && !startsWithHash l)).map pyStrip

/-- Model of `_convert_gitignore_to_regex`: convert one gitignore
pattern to a regex source string, or `none` for the meaningless
patterns `*` and `**`. -/
def convertGitignoreToRegex (pattern : String) : Option String :=
  if pattern = "*" ∨ pattern = "**" then none
  else
    let isDirOnly := endsWithSlash pattern
    let p1 := if isDirOnly then rstripSlash pattern else pattern
    let isRootRelative := startsWithSlash p1
    let p2 := if isRootRelative then lstripSlash p1 else p1
    let p3 := reEscape p2
    let p4 := replaceStr p3 "\\*\\*" "DOUBLESTAR"
    let p5 := replaceStr p4 "\\*" "[^/]*"
    let p6 := replaceStr p5 "\\?" "[^/]"
    let p7 := replaceStr p6 "DOUBLESTAR" ".*"
    if isRootRelative then
      if isDirOnly then some ("^" ++ p7 ++ "(/.*)?$") else some ("^" ++ p7 ++ "$")
    else
      if isDirOnly then some ("(^|/)" ++ p7 ++ "(/.*)?$") else some ("(^|/)" ++ p7 ++ "$")

/-- Model of the final step of `build_gitignore_regex`: compile every
pattern, drop the `none` results, and join with alternation. -/
def buildGitignoreRegexFromPatterns (patterns : List String) : String :=
  joinWith "|" (patterns.filterMap convertGitignoreToRegex)

/-- Model of the exclude-pattern combination done by `generate_cattree`
when gitignore support is on: the user exclude pattern (empty when
falsy), a pipe, and the gitignore pattern, with pipes stripped from
both ends. -/
def combineExclude (userExclude : Option String) (gitignorePattern : String) : String :=
  stripPipes ((match userExclude with | none => "" | some s => s) ++ "|" ++ gitignorePattern)


/-! ### The file-system model -/

/-- A finite file tree.  A file carries the result of reading it as a
list of lines (as returned by `readlines`, each line keeping its
terminator); `none` models a file whose bytes cannot be decoded as
UTF-8 text, for which reading raises `UnicodeDecodeError`. -/
inductive FSTree where
  | file : String → Option (List String) → FSTree
  | dir : String → List FSTree → FSTree

/-- Base name of a tree node (`path.name`). -/
def FSTree.name : FSTree → String
  | .file n _ => n
  | .dir n _ => n

/-- Model of `path.is_file()`. -/
def FSTree.isFile : FSTree → Bool
  | .file _ _ => true
  | .dir _ _ => false

/-- Model of `path.is_dir()`. -/
def FSTree.isDir : FSTree → Bool
  | .file _ _ => false
  | .dir _ _ => true

mutual
/-- Number of nodes of a tree (used as traversal fuel). -/
def FSTree.size : FSTree → Nat
  | .file _ _ => 1
  | .dir _ cs => 1 + sizeList cs
/-- Total number of nodes of a list of trees. -/
def sizeList : List FSTree → Nat
  | [] => 0
  | t :: ts => FSTree.size t + sizeList ts
end

/-- Pairwise-distinct strings (used for the sibling-name uniqueness
invariant that an actual file system guarantees). -/
def namesNodup : List String → Bool
  | [] => true
  | n :: ns => !(ns.contains n) && namesNodup ns

mutual
/-- Every directory of the tree has pairwise-distinct child names:
the invariant every real directory tree satisfies. -/
def uniqNames : FSTree → Bool
  | .file _ _ => true
  | .dir _ cs => namesNodup (cs.map FSTree.name) && uniqNamesList cs
/-- Conjunction of `uniqNames` over a list of trees. -/
def uniqNamesList : List FSTree → Bool
  | [] => true
  | t :: ts => uniqNames t && uniqNamesList ts
end

/-! ### Sibling ordering (`sorted(..., key=lambda p: (p.is_file(), p.name.lower()))`) -/

/-- ASCII lower-casing of a character code (`str.lower` on the ASCII
names the program deals with). -/
def lowerCode (n : Nat) : Nat := if 65 ≤ n ∧ n ≤ 90 then n + 32 else n

/-- Code points of the lower-cased name, the second sort key. -/
def lowerName (s : String) : List Nat := s.data.map (fun c => lowerCode c.toNat)

/-- The Python sort key `(p.is_file(), p.name.lower())`. -/
def sortKey (t : FSTree) : Bool × List Nat := (t.isFile, lowerName t.name)

/-- Lexicographic comparison of code-point lists, as Python compares
strings. -/
def natListLe : List Nat → List Nat → Bool
  | [], _ => true
  | _ :: _, [] => false
  | a :: as, b :: bs => if a < b then true else if b < a then false else natListLe as bs

/-- Lexicographic comparison of Python key tuples `(bool, str)`:
`False < True`, so directories sort before files. -/
def keyLe (x y : Bool × List Nat) : Bool :=
  match x.1, y.1 with
  | false, true => true
  | true, false => false
  | _, _ => natListLe x.2 y.2

/-- The sibling comparison used by the traversal's `sorted` call. -/
def childLe (a b : FSTree) : Bool := keyLe (sortKey a) (sortKey b)

/-- The same comparison as a decidable relation, for `insertionSort`. -/
def childLeR (a b : FSTree) : Prop := childLe a b = true

instance : DecidableRel childLeR := fun a b => instDecidableEqBool (childLe a b) true

/-- Model of Python `sorted(children, key=...)`: a stable sort by the
total key comparison.  `List.insertionSort` is a stable sort, so it
computes exactly the list `sorted` returns. -/
def sortChildren (cs : List FSTree) : List FSTree := List.insertionSort childLeR cs

/-! ### The path filter (`_matches_pattern`) -/

/-- The alternation of `ALLOWED_PATTERNS` (`ALLOWED_REGEX`). -/
def allowedRegexStr : String :=
  ".*\\.py$|.*\\.md$|.*\\.txt$|.*\\.yml$|.*\\.yaml$|.*\\.json$|.*\\.toml$|.*\\.cpp$|.*\\.h$|.*\\.hpp$|.*\\.c$"

/-- The alternation of `BLACKLISTED_PATTERNS` (`BLACKLISTED_REGEX`). -/
def blacklistedRegexStr : String := "^\\.|__pycache__"

/-- Python truthiness of an optional pattern string: `None` and the
empty string are falsy. -/
def truthy : Option String → Bool
  | none => false
  | some s => s ≠ ""

/-- Model of `_matches_pattern(path, root_path, include, exclude)`:
`relPath` is the root-relative path string (`"."` for the root itself).
Files must match the extension allow-list; the blacklist applies to the
base name; exclude and include are tested against both the base name
and the relative path. -/
def matchesPattern (t : FSTree) (relPath : String) (incl excl : Option String) : Bool :=
  if t.isFile && !(reMatchB allowedRegexStr t.name) then false
  else if reMatchB blacklistedRegexStr t.name then false
  else if truthy excl && (reSearch (excl.getD "") t.name || reSearch (excl.getD "") relPath) then false
  else if truthy incl && !(reSearch (incl.getD "") t.name || reSearch (incl.getD "") relPath) then false
  else true

/-! ### The traversal (`traverse_directory_dfs`) -/

/-- A yielded traversal entry: the node, its root-relative path as a
segment list (`[]` for the root), and its depth. -/
structure Entry where
  node : FSTree
  rel : List String
  depth : Nat

/-- The root-relative path string of an entry
(`str(path.relative_to(root_path))`, which is `"."` for the root). -/
def relString (rel : List String) : String :=
  match rel with
  | [] => "."
  | _ => joinWith "/" rel

/-- The stack loop of `traverse_directory_dfs`: pop a node, skip it
(with its subtree) when the filter rejects it, otherwise yield it and
push its sorted children (`reversed` push + LIFO pop = ascending
order, modelled by prepending the sorted list).  Fuel bounds the number
of loop iterations, which never exceeds the total node count. -/
def travGo (incl excl : Option String) : Nat → List (FSTree × List String × Nat) → List Entry
  | 0, _ => []
  | _+1, [] => []
  | fuel+1, (t, rel, d) :: rest =>
    if matchesPattern t (relString rel) incl excl then
      match t with
      | .file n c => ⟨.file n c, rel, d⟩ :: travGo incl excl fuel rest
      | .dir n cs =>
        ⟨.dir n cs, rel, d⟩ ::
          travGo incl excl fuel
            (((sortChildren cs).map (fun c => (c, rel ++ [c.name], d + 1))) ++ rest)
    else travGo incl excl fuel rest

/-- Model of `traverse_directory_dfs(directory, include, exclude)` as
the list of yielded entries (the generator, fully drained). -/
def traverseDirectoryDfs (t : FSTree) (incl excl : Option String) : List Entry :=
  travGo incl excl (FSTree.size t) [(t, [], 0)]

/-- Recursive characterisation of the traversal of a single subtree,
used for reasoning; `travGo_eq_flatten` connects it to the stack loop. -/
def travTree (incl excl : Option String) : FSTree → List String → Nat → List Entry
  | .file n c, rel, d =>
    if matchesPattern (.file n c) (relString rel) incl excl then [⟨.file n c, rel, d⟩] else []
  | .dir n cs, rel, d =>
    if matchesPattern (.dir n cs) (relString rel) incl excl then
      ⟨.dir n cs, rel, d⟩ ::
        ((sortChildren cs).attach.map
          (fun c => travTree incl excl c.val (rel ++ [c.val.name]) (d + 1))).flatten
    else []
termination_by t _ _ => FSTree.size t
decreasing_by
  simp only [FSTree.size]
  have hmem : c.val ∈ cs := by
    have h := c.property
    unfold sortChildren at h
    rwa [List.mem_insertionSort] at h
  have hbound : ∀ (l : List FSTree), c.val ∈ l → FSTree.size c.val ≤ sizeList l := by
    intro l hl
    induction l with
    | nil => cases hl
    | cons t ts ih =>
      rcases List.mem_cons.mp hl with h | h
      · rw [h]
        simp only [sizeList]
        omega
      · have := ih h
        simp only [sizeList]
        omega
  have := hbound cs hmem
  omega

/-! ### Only-paths filtering (`_is_path_allowed`) -/

/-- Model of `allowed.is_dir()` for a root-relative path: the path
exists in the tree and points at a directory. -/
def isDirAt : List String → FSTree → Bool
  | [], t => t.isDir
  | s :: rest, t =>
    match t with
    | .file _ _ => false
    | .dir _ cs => cs.any (fun c => c.name == s && isDirAt rest c)

/-- Look up the node at a root-relative path (first matching child, as
on a real file system where sibling names are unique). -/
def nodeAt : List String → FSTree → Option FSTree
  | [], t => some t
  | s :: rest, t =>
    match t with
    | .file _ _ => none
    | .dir _ cs =>
      match cs.find? (fun c => c.name == s) with
      | some c => nodeAt rest c
      | none => none

/-- Model of `_is_path_allowed(path, only_paths, root)`: the path is in
the set, or is a descendant of a directory in the set, or is an
ancestor of some path in the set.  Paths are root-relative segment
lists (resolution against the root is the identity in the model). -/
def isPathAllowed (pathSegs : List String) (onlySet : List (List String)) (root : FSTree) : Bool :=
  onlySet.contains pathSegs
  || onlySet.any (fun a => isDirAt a root && a.isPrefixOf pathSegs)
  || onlySet.any (fun a => pathSegs.isPrefixOf a)

/-! ### File content rendering (`format_file_content`) -/

/-- Model of `format_file_content`: `pathStr` is the printable full
path used in the error message, `relStr` the root-relative path that
heads the block, `content?` the `readlines` result (`none` when
decoding fails, in which case the function raises a `ValueError`
naming the unreadable path). -/
def formatFileContent (pathStr relStr : String) (content? : Option (List String))
    (maxLines : Option Nat) (compactCode : Bool) : Except String String :=
  match content? with
  | none => .error ("Failed to read file " ++ pathStr)
  | some content0 =>
    let content1 :=
      match maxLines with
      | none => content0
      | some m =>
        let c := content0.take m
        if c.length = m then c ++ ["..."] else c
    let content2 := if compactCode then content1.map compactLine else content1
    .ok (joinAll ((relStr ++ ":\n") :: content2))

/-! ### Gitignore discovery over the tree (`build_gitignore_regex`) -/

mutual
/-- Lines of every file named `.gitignore` anywhere under the root
(model of `directory.glob("**/.gitignore")` + `_parse_gitignore`
reading; an unreadable gitignore is treated as empty — no claim
exercises that corner). -/
def collectGitignoreLines : FSTree → List String
  | .file n content? =>
    if n == ".gitignore" then (match content? with | some ls => ls | none => []) else []
  | .dir _ cs => collectGitignoreLinesList cs
/-- Concatenation of `collectGitignoreLines` over a list of trees. -/
def collectGitignoreLinesList : List FSTree → List String
  | [] => []
  | t :: ts => collectGitignoreLines t ++ collectGitignoreLinesList ts
end

/-- Model of `build_gitignore_regex(directory)`. -/
def buildGitignoreRegex (t : FSTree) : String :=
  buildGitignoreRegexFromPatterns (parseGitignoreLines (collectGitignoreLines t))

/-! ### Output assembly (`generate_cattree`) -/

/-- Printable path of a node: the root directory name joined with the
root-relative segments (model of `str(directory / ...)`). -/
def pathString (root : FSTree) (rel : List String) : String :=
  joinWith "/" (root.name :: rel)

/-- Connector glyph used for directory lines. -/
def interiorConnector : String := "├── "

/-- Connector glyph used for file lines. -/
def leafConnector : String := "└── "

/-- The tree-drawing line of a non-root entry: indentation is
`"    " * (depth - 1)`; the connector depends only on the node type. -/
def treeLineFor (e : Entry) : String :=
  String.mk (List.replicate (4 * (e.depth - 1)) ' ')
    ++ (if e.node.isDir then interiorConnector else leafConnector)
    ++ e.node.name

/-- The only-paths skip test of the rendering loop
(`only_paths_set and not _is_path_allowed(...)`). -/
def skippedByOnly (onlySet : Option (List (List String))) (root : FSTree) (e : Entry) : Bool :=
  match onlySet with
  | some s => !(isPathAllowed e.rel s root)
  | none => false

/-- The entry-consuming loop of `generate_cattree`: skip the root
entry and entries rejected by only-paths, build one tree line per kept
entry, and one content block per kept file (empty for directories).
A file that fails to decode raises, aborting the whole loop. -/
def renderLoop (root : FSTree) (onlySet : Option (List (List String)))
    (maxLines : Option Nat) (compactCode : Bool) :
    List Entry → Except String (List String × List String)
  | [] => .ok ([], [])
  | e :: es =>
    if e.depth = 0 then renderLoop root onlySet maxLines compactCode es
    else if skippedByOnly onlySet root e then renderLoop root onlySet maxLines compactCode es
    else
      match e.node with
      | .file _ content? =>
        match formatFileContent (pathString root e.rel) (joinWith "/" e.rel) content? maxLines compactCode with
        | .error msg => .error msg
        | .ok c =>
          match renderLoop root onlySet maxLines compactCode es with
          | .error msg => .error msg
          | .ok (ls, cs) => .ok (treeLineFor e :: ls, c :: cs)
      | .dir _ _ =>
        match renderLoop root onlySet maxLines compactCode es with
        | .error msg => .error msg
        | .ok (ls, cs) => .ok (treeLineFor e :: ls, "" :: cs)

/-- The separator placed between content blocks (`"-" * 80` + newline). -/
def ruleLine : String := String.mk (List.replicate 80 '-') ++ "\n"

/-- Model of `generate_cattree`: build the only-paths set (a non-empty
`--only` list disables the include pattern), fold the gitignore regex
into the exclude pattern when enabled, traverse, then assemble the tree
text and the non-empty content blocks.  A `ValueError` raised anywhere
(invalid root, undecodable file) aborts the call and is modelled as
`Except.error`. -/
def generateCattree (root : FSTree) (onlyPaths : Option (List String))
    (includePat excludePat : Option String) (gitignore : Bool)
    (maxLines : Option Nat) (compactCode : Bool) : Except String String :=
  let onlySet : Option (List (List String)) :=
    match onlyPaths with
    | some (p :: ps) => some ((p :: ps).map splitSlash)
    | _ => none
  let includePat := if onlySet.isSome then none else includePat
  let excludePat :=
    if gitignore then some (combineExclude excludePat (buildGitignoreRegex root)) else excludePat
  if root.isDir = false then .error ("The path " ++ root.name ++ " is not a valid directory.")
  else
    match renderLoop root onlySet maxLines compactCode (traverseDirectoryDfs root includePat excludePat) with
    | .error msg => .error msg
    | .ok (treeLines, contents) =>
      .ok (joinWith "\n" (root.name :: treeLines) ++ "\n"
        ++ joinWith ruleLine (contents.filter (fun c => c ≠ "")))

/-! ### Concrete trees used by the claim instances -/

/-- A root with an undecodable file next to a readable one. -/
def exTreeC1 : FSTree := .dir "r" [.file "bad.py" none, .file "good.py" (some ["ok\n"])]

/-- A root with a single source file under `src`. -/
def exTreeC2 : FSTree := .dir "r" [.dir "src" [.file "a.py" (some ["x\n"])]]

/-- A root directory whose own name starts with a dot. -/
def exTreeC3 : FSTree := .dir ".hidden" [.file "a.py" (some ["x\n"])]

/-- A gitignore whose lines are a comment, a blank, and `*`. -/
def exTreeC5 : FSTree := .dir "r" [.file ".gitignore" (some ["# only a comment\n", "\n", "*\n"])]

/-- A root with a blacklisted directory and a sibling file. -/
def exTreeC7 : FSTree := .dir "r" [.dir ".git" [.file "c.py" (some [])], .file "a.py" (some ["x\n"])]

/-- Two children whose sort keys tie (same type, same lower-cased name). -/
def exChildrenA : List FSTree := [.file "A.py" (some []), .file "a.py" (some [])]

/-- The same children in the opposite listing order. -/
def exChildrenB : List FSTree := [.file "a.py" (some []), .file "A.py" (some [])]

/-- Root over `exChildrenA`. -/
def exTreeC8a : FSTree := .dir "r" exChildrenA

/-- Root over `exChildrenB`. -/
def exTreeC8b : FSTree := .dir "r" exChildrenB

/-- A root whose single child directory is the last of its siblings. -/
def exTreeC10 : FSTree := .dir "r" [.dir "sub" [.file "b.py" (some ["y\n"])]]

/-- Total node count of the trees sitting on a traversal stack: an
upper bound for the number of remaining loop iterations. -/
def stackWeight : List (FSTree × List String × Nat) → Nat
  | [] => 0
  | x :: rest => FSTree.size x.1 + stackWeight rest

/-- The entries of a traversal output that are direct children of the
directory whose root-relative path is `p` (their path extends `p` by
exactly one segment), in yielded order. -/
def childEntries (l : List Entry) (p : List String) : List Entry :=
  l.filter (fun e => e.rel.length == p.length + 1 && p.isPrefixOf e.rel)

/-- A file node whose content cannot be decoded as text. -/
def isUnreadableFile : FSTree → Bool
  | .file _ none => true
  | _ => false


/-! ## Infrastructure lemmas -/

/-! ### The sort key is a total preorder -/

theorem natListLe_total : ∀ a b : List Nat, natListLe a b = true ∨ natListLe b a = true := by
  intro a
  induction a with
  | nil => intro b; exact Or.inl rfl
  | cons x xs ih =>
    intro b
    cases b with
    | nil => exact Or.inr rfl
    | cons y ys =>
      simp only [natListLe]
      rcases Nat.lt_trichotomy x y with h | h | h
      · left; simp [h]
      · subst h
        simp only [Nat.lt_irrefl, if_false]
        exact ih ys
      · right; simp [h, Nat.lt_asymm h]

theorem natListLe_trans : ∀ a b c : List Nat,
    natListLe a b = true → natListLe b c = true → natListLe a c = true := by
  intro a
  induction a with
  | nil => intro b c _ _; rfl
  | cons x xs ih =>
    intro b c hab hbc
    cases b with
    | nil => simp [natListLe] at hab
    | cons y ys =>
      cases c with
      | nil => simp [natListLe] at hbc
      | cons z zs =>
        simp only [natListLe] at hab hbc ⊢
        rcases Nat.lt_trichotomy x y with h1 | h1 | h1
        · rcases Nat.lt_trichotomy y z with h2 | h2 | h2
          · simp [Nat.lt_trans h1 h2]
          · subst h2; simp [h1]
          · simp [h2, Nat.lt_asymm h2] at hbc
        · subst h1
          simp only [Nat.lt_irrefl, if_false] at hab
          rcases Nat.lt_trichotomy x z with h2 | h2 | h2
          · simp [h2]
          · subst h2
            simp only [Nat.lt_irrefl, if_false] at hbc ⊢
            exact ih ys zs hab hbc
          · simp [h2, Nat.lt_asymm h2] at hbc
        · simp [h1, Nat.lt_asymm h1] at hab

theorem natListLe_antisymm : ∀ a b : List Nat,
    natListLe a b = true → natListLe b a = true → a = b := by
  intro a
  induction a with
  | nil =>
    intro b _ hba
    cases b with
    | nil => rfl
    | cons y ys => simp [natListLe] at hba
  | cons x xs ih =>
    intro b hab hba
    cases b with
    | nil => simp [natListLe] at hab
    | cons y ys =>
      simp only [natListLe] at hab hba
      rcases Nat.lt_trichotomy x y with h1 | h1 | h1
      · simp [h1, Nat.lt_asymm h1] at hba
      · subst h1
        simp only [Nat.lt_irrefl, if_false] at hab hba
        rw [ih ys hab hba]
      · simp [h1, Nat.lt_asymm h1] at hab

theorem keyLe_total (x y : Bool × List Nat) : keyLe x y = true ∨ keyLe y x = true := by
  obtain ⟨bx, sx⟩ := x
  obtain ⟨bb, sy⟩ := y
  cases bx <;> cases bb <;> simp [keyLe] <;> exact natListLe_total sx sy

theorem keyLe_trans (x y z : Bool × List Nat)
    (hxy : keyLe x y = true) (hyz : keyLe y z = true) : keyLe x z = true := by
  obtain ⟨bx, sx⟩ := x
  obtain ⟨bb, sy⟩ := y
  obtain ⟨bz, sz⟩ := z
  cases bx <;> cases bb <;> cases bz <;> simp_all [keyLe] <;>
    exact natListLe_trans sx sy sz hxy hyz

theorem keyLe_antisymm (x y : Bool × List Nat)
    (hxy : keyLe x y = true) (hyx : keyLe y x = true) : x = y := by
  obtain ⟨bx, sx⟩ := x
  obtain ⟨bb, sy⟩ := y
  cases bx <;> cases bb <;> simp_all [keyLe]
  · exact natListLe_antisymm sx sy hxy hyx
  · exact natListLe_antisymm sx sy hxy hyx

/-! ### The sorted children list -/

theorem sortChildren_perm (cs : List FSTree) : List.Perm (sortChildren cs) cs :=
  List.perm_insertionSort childLeR cs

theorem mem_sortChildren {a : FSTree} {cs : List FSTree} :
    a ∈ sortChildren cs ↔ a ∈ cs := by
  unfold sortChildren
  exact List.mem_insertionSort childLeR

theorem sortChildren_sorted (cs : List FSTree) :
    List.Pairwise childLeR (sortChildren cs) := by
  haveI : IsTotal FSTree childLeR :=
    ⟨fun a b => keyLe_total (sortKey a) (sortKey b)⟩
  haveI : IsTrans FSTree childLeR :=
    ⟨fun a b c hab hbc => keyLe_trans (sortKey a) (sortKey b) (sortKey c) hab hbc⟩
  exact List.sorted_insertionSort childLeR cs

/-! ### Sizes -/

theorem size_pos (t : FSTree) : 1 ≤ FSTree.size t := by
  cases t <;> simp [FSTree.size]

theorem mem_sizeList_le {c : FSTree} : ∀ {cs : List FSTree}, c ∈ cs → FSTree.size c ≤ sizeList cs := by
  intro cs h
  induction cs with
  | nil => cases h
  | cons t ts ih =>
    rcases List.mem_cons.mp h with h1 | h1
    · rw [h1]; simp only [sizeList]; omega
    · have := ih h1; simp only [sizeList]; omega

theorem sizeList_eq_sum (l : List FSTree) : sizeList l = (l.map FSTree.size).sum := by
  induction l with
  | nil => rfl
  | cons t ts ih => simp [sizeList, ih]

theorem sizeList_perm {cs cs' : List FSTree} (h : List.Perm cs cs') :
    sizeList cs = sizeList cs' := by
  rw [sizeList_eq_sum, sizeList_eq_sum]
  exact List.Perm.sum_eq (h.map FSTree.size)

theorem size_child_lt {c : FSTree} {n : String} {cs : List FSTree} (h : c ∈ cs) :
    FSTree.size c < FSTree.size (.dir n cs) := by
  have := mem_sizeList_le h
  simp only [FSTree.size]
  omega

/-! ### List prefix helpers -/

theorem consPrefix {α : Type} {x y : α} {xs ys : List α}
    (h : (x :: xs) <+: (y :: ys)) : x = y ∧ xs <+: ys := by
  obtain ⟨t, ht⟩ := h
  injection ht with h1 h2
  exact ⟨h1, ⟨t, h2⟩⟩

theorem consPrefixIntro {α : Type} {x : α} {xs ys : List α}
    (h : xs <+: ys) : (x :: xs) <+: (x :: ys) := by
  obtain ⟨t, ht⟩ := h
  exact ⟨t, by rw [List.cons_append, ht]⟩

theorem prefAppendCancel {α : Type} : ∀ (r a b : List α), (r ++ a) <+: (r ++ b) → a <+: b := by
  intro r
  induction r with
  | nil => intro a b h; simpa using h
  | cons x rs ih =>
    intro a b h
    simp only [List.cons_append] at h
    exact ih a b (consPrefix h).2

theorem prefOfPrefLen {α : Type} : ∀ (a b c : List α),
    a <+: c → b <+: c → a.length ≤ b.length → a <+: b := by
  intro a
  induction a with
  | nil => intro b c _ _ _; exact ⟨b, rfl⟩
  | cons x xs ih =>
    intro b c h1 h2 hlen
    cases c with
    | nil =>
      obtain ⟨t, ht⟩ := h1
      simp at ht
    | cons z zs =>
      obtain ⟨hxz, hxs⟩ := consPrefix h1
      cases b with
      | nil => simp at hlen
      | cons y ys =>
        obtain ⟨hyz, hys⟩ := consPrefix h2
        subst hxz
        subst hyz
        exact consPrefixIntro (ih ys zs hxs hys (Nat.succ_le_succ_iff.mp hlen))

theorem prefixEqOfLength {α : Type} {a b : List α}
    (h : a <+: b) (hl : a.length = b.length) : a = b := by
  obtain ⟨t, ht⟩ := h
  have : t.length = 0 := by
    have := congrArg List.length ht
    simp at this
    omega
  rw [List.length_eq_zero] at this
  rw [this] at ht
  simpa using ht

theorem prefixLengthLe {α : Type} {a b : List α} (h : a <+: b) : a.length ≤ b.length := by
  obtain ⟨t, ht⟩ := h
  have := congrArg List.length ht
  simp at this
  omega

/-! ### Equations for the recursive traversal -/

theorem attachMapVal {α β : Type} (l : List α) (g : α → β) :
    (l.attach.map (fun x => g x.val)) = l.map g := by
  simp

theorem travTree_file (incl excl : Option String) (n : String) (c : Option (List String))
    (rel : List String) (d : Nat) :
    travTree incl excl (.file n c) rel d
      = if matchesPattern (.file n c) (relString rel) incl excl then [⟨.file n c, rel, d⟩]
        else [] := by
  simp only [travTree]

theorem travTree_dir (incl excl : Option String) (n : String) (cs : List FSTree)
    (rel : List String) (d : Nat) :
    travTree incl excl (.dir n cs) rel d
      = if matchesPattern (.dir n cs) (relString rel) incl excl then
          ⟨.dir n cs, rel, d⟩ ::
            ((sortChildren cs).map (fun c => travTree incl excl c (rel ++ [c.name]) (d + 1))).flatten
        else [] := by
  simp only [travTree]
  rw [attachMapVal (sortChildren cs) (fun c => travTree incl excl c (rel ++ [c.name]) (d + 1))]

theorem travTree_neg {incl excl : Option String} {t : FSTree} {rel : List String} {d : Nat}
    (h : matchesPattern t (relString rel) incl excl = false) :
    travTree incl excl t rel d = [] := by
  cases t with
  | file n c => rw [travTree_file, h]; simp
  | dir n cs => rw [travTree_dir, h]; simp

theorem travTree_file_pos {incl excl : Option String} {n : String} {c : Option (List String)}
    {rel : List String} {d : Nat}
    (h : matchesPattern (.file n c) (relString rel) incl excl = true) :
    travTree incl excl (.file n c) rel d = [⟨.file n c, rel, d⟩] := by
  rw [travTree_file, h]
  simp

theorem travTree_dir_pos {incl excl : Option String} {n : String} {cs : List FSTree}
    {rel : List String} {d : Nat}
    (h : matchesPattern (.dir n cs) (relString rel) incl excl = true) :
    travTree incl excl (.dir n cs) rel d
      = ⟨.dir n cs, rel, d⟩ ::
          ((sortChildren cs).map (fun c => travTree incl excl c (rel ++ [c.name]) (d + 1))).flatten := by
  rw [travTree_dir, h]
  simp

/-! ### The stack loop computes the recursive traversal -/

theorem stackWeight_append (a b : List (FSTree × List String × Nat)) :
    stackWeight (a ++ b) = stackWeight a + stackWeight b := by
  induction a with
  | nil => simp [stackWeight]
  | cons x xs ih => simp [stackWeight, ih]; omega

theorem stackWeight_children (l : List FSTree) (rel : List String) (d : Nat) :
    stackWeight (l.map (fun c => (c, rel ++ [c.name], d))) = sizeList l := by
  induction l with
  | nil => rfl
  | cons t ts ih => simp [stackWeight, sizeList, ih]

theorem travGo_eq (incl excl : Option String) : ∀ (f : Nat) (st : List (FSTree × List String × Nat)),
    stackWeight st ≤ f →
    travGo incl excl f st = (st.map (fun x => travTree incl excl x.1 x.2.1 x.2.2)).flatten := by
  intro f
  induction f with
  | zero =>
    intro st h
    cases st with
    | nil => rfl
    | cons x rest =>
      exfalso
      have h1 := size_pos x.1
      simp only [stackWeight] at h
      omega
  | succ f ih =>
    intro st h
    cases st with
    | nil => rfl
    | cons x rest =>
      obtain ⟨t, rel, d⟩ := x
      simp only [stackWeight] at h
      cases hm : matchesPattern t (relString rel) incl excl with
      | false =>
        have hr : stackWeight rest ≤ f := by
          have := size_pos t
          omega
        have lhs : travGo incl excl (f+1) ((t, rel, d) :: rest) = travGo incl excl f rest := by
          cases t <;> simp [travGo, hm]
        rw [lhs, ih rest hr]
        simp [travTree_neg hm]
      | true =>
        cases t with
        | file n c =>
          have hr : stackWeight rest ≤ f := by
            simp only [FSTree.size] at h
            omega
          have lhs : travGo incl excl (f+1) ((FSTree.file n c, rel, d) :: rest)
              = ⟨FSTree.file n c, rel, d⟩ :: travGo incl excl f rest := by
            simp [travGo, hm]
          rw [lhs, ih rest hr]
          simp [travTree_file_pos hm]
        | dir n cs =>
          have hw : stackWeight ((sortChildren cs).map (fun c => (c, rel ++ [c.name], d + 1)))
              = sizeList cs := by
            rw [stackWeight_children, sizeList_perm (sortChildren_perm cs)]
          have hr : stackWeight (((sortChildren cs).map (fun c => (c, rel ++ [c.name], d + 1))) ++ rest) ≤ f := by
            rw [stackWeight_append, hw]
            simp only [FSTree.size] at h
            omega
          have lhs : travGo incl excl (f+1) ((FSTree.dir n cs, rel, d) :: rest)
              = ⟨FSTree.dir n cs, rel, d⟩ ::
                  travGo incl excl f (((sortChildren cs).map (fun c => (c, rel ++ [c.name], d + 1))) ++ rest) := by
            simp [travGo, hm]
          rw [lhs, ih _ hr]
          simp [List.map_append, List.flatten_append, List.map_map, Function.comp,
            travTree_dir_pos hm]
          rfl

theorem traverseDfs_eq_travTree (t : FSTree) (incl excl : Option String) :
    traverseDirectoryDfs t incl excl = travTree incl excl t [] 0 := by
  unfold traverseDirectoryDfs
  rw [travGo_eq incl excl (FSTree.size t) [(t, [], 0)] (by simp [stackWeight])]
  simp

theorem prefTrans {α : Type} {a b c : List α} (h1 : a <+: b) (h2 : b <+: c) : a <+: c := by
  obtain ⟨t1, ht1⟩ := h1
  obtain ⟨t2, ht2⟩ := h2
  exact ⟨t1 ++ t2, by rw [← List.append_assoc, ht1, ht2]⟩

theorem prefAppendRight {α : Type} (a t : List α) : a <+: a ++ t := ⟨t, rfl⟩

/-- Every entry yielded from a subtree rooted at `rel` lies below `rel`
and at depth at least `d`; the only entry at `rel` itself (equivalently
at depth `d`) is the subtree root's own entry. -/
theorem mem_travTree (incl excl : Option String) : ∀ (N : Nat) (t : FSTree) (rel : List String) (d : Nat),
    FSTree.size t ≤ N → ∀ e ∈ travTree incl excl t rel d,
      rel <+: e.rel ∧ d ≤ e.depth ∧
      (rel.length = e.rel.length → e = ⟨t, rel, d⟩) ∧ (d = e.depth → e = ⟨t, rel, d⟩) := by
  intro N
  induction N with
  | zero =>
    intro t rel d hN
    have := size_pos t
    omega
  | succ N ih =>
    intro t rel d hN e he
    cases hm : matchesPattern t (relString rel) incl excl with
    | false =>
      rw [travTree_neg hm] at he
      cases he
    | true =>
      cases t with
      | file n c =>
        rw [travTree_file_pos hm] at he
        simp at he
        subst he
        exact ⟨List.prefix_refl _, Nat.le_refl _, fun _ => rfl, fun _ => rfl⟩
      | dir n cs =>
        rw [travTree_dir_pos hm] at he
        rcases List.mem_cons.mp he with he1 | he1
        · subst he1
          exact ⟨List.prefix_refl _, Nat.le_refl _, fun _ => rfl, fun _ => rfl⟩
        · rw [List.mem_flatten] at he1
          obtain ⟨l, hl, hel⟩ := he1
          rw [List.mem_map] at hl
          obtain ⟨c, hc, hlc⟩ := hl
          subst hlc
          have hcs : c ∈ cs := mem_sortChildren.mp hc
          have hsz : FSTree.size c ≤ N := by
            have := size_child_lt (n := n) hcs
            omega
          obtain ⟨hpre, hdep, _, _⟩ := ih c (rel ++ [c.name]) (d+1) hsz e hel
          have hlenpre := prefixLengthLe hpre
          simp only [List.length_append, List.length_singleton] at hlenpre
          refine ⟨prefTrans (prefAppendRight rel [c.name]) hpre, by omega, ?_, ?_⟩
          · intro hlen
            omega
          · intro hd
            omega

/-- A traversal output is empty (node rejected) or starts with the
subtree root's entry. -/
theorem travTree_shape (incl excl : Option String) (t : FSTree) (rel : List String) (d : Nat) :
    travTree incl excl t rel d = [] ∨ (travTree incl excl t rel d).head? = some ⟨t, rel, d⟩ := by
  cases hm : matchesPattern t (relString rel) incl excl with
  | false => exact Or.inl (travTree_neg hm)
  | true =>
    right
    cases t with
    | file n c => rw [travTree_file_pos hm]; rfl
    | dir n cs => rw [travTree_dir_pos hm]; rfl

/-! ### Sibling-name uniqueness -/

theorem uniqNamesList_mem : ∀ {cs : List FSTree}, uniqNamesList cs = true →
    ∀ {c : FSTree}, c ∈ cs → uniqNames c = true := by
  intro cs
  induction cs with
  | nil => intro _ c hc; cases hc
  | cons t ts ih =>
    intro h c hc
    simp only [uniqNamesList, Bool.and_eq_true] at h
    rcases List.mem_cons.mp hc with h1 | h1
    · rw [h1]; exact h.1
    · exact ih h.2 h1

theorem namesNodup_unique : ∀ {l : List FSTree}, namesNodup (l.map FSTree.name) = true →
    ∀ {a b : FSTree}, a ∈ l → b ∈ l → a.name = b.name → a = b := by
  intro l
  induction l with
  | nil => intro _ a b ha; cases ha
  | cons t ts ih =>
    intro h a b ha hb hne
    simp only [List.map_cons, namesNodup, Bool.and_eq_true] at h
    obtain ⟨hcont, hrest⟩ := h
    rcases List.mem_cons.mp ha with ha1 | ha1 <;> rcases List.mem_cons.mp hb with hb1 | hb1
    · rw [ha1, hb1]
    · exfalso
      have hmm : t.name ∈ ts.map FSTree.name := by
        rw [ha1] at hne
        rw [hne]
        exact List.mem_map_of_mem _ hb1
      simp [List.contains, List.elem_iff, hmm] at hcont
    · exfalso
      have hmm : t.name ∈ ts.map FSTree.name := by
        rw [hb1] at hne
        rw [← hne]
        exact List.mem_map_of_mem _ ha1
      simp [List.contains, List.elem_iff, hmm] at hcont
    · exact ih hrest ha1 hb1 hne

/-! ### Subtree pruning (claim C7 core) -/

/-- If the node sitting at path `p` below the current subtree is
rejected by the filter, no entry of the subtree's traversal lies at or
below that path. -/
theorem prune_aux (incl excl : Option String) : ∀ (N : Nat) (t : FSTree) (rel : List String)
    (d : Nat) (p : List String) (sub : FSTree),
    FSTree.size t ≤ N → uniqNames t = true → nodeAt p t = some sub →
    matchesPattern sub (relString (rel ++ p)) incl excl = false →
    ∀ e ∈ travTree incl excl t rel d, ¬ ((rel ++ p) <+: e.rel) := by
  intro N
  induction N with
  | zero =>
    intro t rel d p sub hN
    have := size_pos t
    omega
  | succ N ih =>
    intro t rel d p sub hN huniq hnode hrej e he hpref
    cases p with
    | nil =>
      have hsub : t = sub := by simpa [nodeAt] using hnode
      rw [← hsub] at hrej
      rw [travTree_neg (by simpa using hrej)] at he
      cases he
    | cons s p' =>
      cases t with
      | file n c => simp [nodeAt] at hnode
      | dir n cs =>
        simp only [nodeAt] at hnode
        cases hfind : cs.find? (fun c => c.name == s) with
        | none => rw [hfind] at hnode; cases hnode
        | some c0 =>
          rw [hfind] at hnode
          have hc0cs : c0 ∈ cs := List.mem_of_find?_eq_some hfind
          have hc0name : c0.name = s := by
            have := List.find?_some hfind
            simpa using this
          cases hm : matchesPattern (.dir n cs) (relString rel) incl excl with
          | false => rw [travTree_neg hm] at he; cases he
          | true =>
            rw [travTree_dir_pos hm] at he
            rcases List.mem_cons.mp he with he1 | he1
            · subst he1
              have := prefixLengthLe hpref
              simp at this
            · rw [List.mem_flatten] at he1
              obtain ⟨l, hl, hel⟩ := he1
              rw [List.mem_map] at hl
              obtain ⟨c, hc, hlc⟩ := hl
              subst hlc
              have hccs : c ∈ cs := mem_sortChildren.mp hc
              have hsz : FSTree.size c ≤ N := by
                have := size_child_lt (n := n) hccs
                omega
              obtain ⟨hpre2, _, _, _⟩ :=
                mem_travTree incl excl N c (rel ++ [c.name]) (d+1) hsz e hel
              have hpp : (rel ++ [c.name]) <+: (rel ++ s :: p') := by
                apply prefOfPrefLen _ _ e.rel hpre2 hpref
                simp
              have hname : c.name = s :=
                (consPrefix (prefAppendCancel rel [c.name] (s :: p') hpp)).1
              have hudir := huniq
              simp only [uniqNames, Bool.and_eq_true] at hudir
              have hceq : c = c0 :=
                namesNodup_unique hudir.1 hccs hc0cs (by rw [hname, hc0name])
              have huc : uniqNames c = true := uniqNamesList_mem hudir.2 hccs
              have hnode' : nodeAt p' c = some sub := by rw [hceq]; exact hnode
              have hassoc : (rel ++ [c.name]) ++ p' = rel ++ s :: p' := by
                rw [List.append_assoc, hname]
                rfl
              have hrej' : matchesPattern sub (relString ((rel ++ [c.name]) ++ p')) incl excl = false := by
                rw [hassoc]
                exact hrej
              have hpref' : ((rel ++ [c.name]) ++ p') <+: e.rel := by
                rw [hassoc]
                exact hpref
              exact ih c (rel ++ [c.name]) (d+1) p' sub hsz huc hnode' hrej' e hel hpref'

/-! ### No entry is yielded twice (claim C8, uniqueness part) -/

theorem prefSnoc_eq {α : Type} {rel : List α} {a b : α} {x : List α}
    (h1 : (rel ++ [a]) <+: x) (h2 : (rel ++ [b]) <+: x) : a = b := by
  have h3 : (rel ++ [a]) <+: (rel ++ [b]) := prefOfPrefLen _ _ x h1 h2 (by simp)
  exact (consPrefix (prefAppendCancel rel [a] [b] h3)).1

theorem nodupFlattenAux {α : Type} : ∀ (Ls : List (List α)),
    (∀ l ∈ Ls, l.Nodup) →
    List.Pairwise (fun l1 l2 => ∀ x ∈ l1, x ∉ l2) Ls →
    Ls.flatten.Nodup := by
  intro Ls
  induction Ls with
  | nil => intro _ _; simp
  | cons l ls ih =>
    intro h1 h2
    simp only [List.flatten_cons]
    rw [List.nodup_append]
    rcases h2 with _ | ⟨hrel, htail⟩
    refine ⟨h1 l (List.mem_cons_self l ls), ih (fun l' hl' => h1 l' (List.mem_cons_of_mem _ hl')) htail, ?_⟩
    intro x hx hx2
    rw [List.mem_flatten] at hx2
    obtain ⟨l', hl', hxl'⟩ := hx2
    exact hrel l' hl' x hx hxl'

theorem namesNodup_pairwise : ∀ {L : List String}, namesNodup L = true →
    List.Pairwise (fun a b => a ≠ b) L := by
  intro L
  induction L with
  | nil => intro _; exact List.Pairwise.nil
  | cons x xs ih =>
    intro h
    simp only [namesNodup, Bool.and_eq_true] at h
    refine List.Pairwise.cons ?_ (ih h.2)
    intro y hy hxy
    have : x ∈ xs := by rw [hxy]; exact hy
    simp [List.contains, List.elem_iff, this] at h

theorem travTree_rel_nodup (incl excl : Option String) : ∀ (N : Nat) (t : FSTree)
    (rel : List String) (d : Nat),
    FSTree.size t ≤ N → uniqNames t = true →
    ((travTree incl excl t rel d).map Entry.rel).Nodup := by
  intro N
  induction N with
  | zero =>
    intro t rel d hN
    have := size_pos t
    omega
  | succ N ih =>
    intro t rel d hN huniq
    cases hm : matchesPattern t (relString rel) incl excl with
    | false => simp [travTree_neg hm]
    | true =>
      cases t with
      | file n c => simp [travTree_file_pos hm]
      | dir n cs =>
        rw [travTree_dir_pos hm]
        simp only [List.map_cons, List.nodup_cons]
        constructor
        · intro hmem
          rw [List.mem_map] at hmem
          obtain ⟨e, he, herel⟩ := hmem
          rw [List.mem_flatten] at he
          obtain ⟨l, hl, hel⟩ := he
          rw [List.mem_map] at hl
          obtain ⟨c, hc, hlc⟩ := hl
          subst hlc
          have hsz : FSTree.size c ≤ N := by
            have := size_child_lt (n := n) (mem_sortChildren.mp hc)
            omega
          obtain ⟨hpre, _, _, _⟩ := mem_travTree incl excl N c (rel ++ [c.name]) (d+1) hsz e hel
          have := prefixLengthLe hpre
          rw [herel] at this
          simp at this
        · have hmapflat :
              ((((sortChildren cs).map (fun c => travTree incl excl c (rel ++ [c.name]) (d + 1))).flatten).map Entry.rel)
              = (((sortChildren cs).map (fun c => (travTree incl excl c (rel ++ [c.name]) (d + 1)).map Entry.rel)).flatten) := by
            rw [List.map_flatten, List.map_map]
            rfl
          rw [hmapflat]
          apply nodupFlattenAux
          · intro l hl
            rw [List.mem_map] at hl
            obtain ⟨c, hc, hlc⟩ := hl
            subst hlc
            have hccs := mem_sortChildren.mp hc
            have hsz : FSTree.size c ≤ N := by
              have := size_child_lt (n := n) hccs
              omega
            have hudir := huniq
            simp only [uniqNames, Bool.and_eq_true] at hudir
            exact ih c (rel ++ [c.name]) (d+1) hsz (uniqNamesList_mem hudir.2 hccs)
          · rw [List.pairwise_map]
            have hudir := huniq
            simp only [uniqNames, Bool.and_eq_true] at hudir
            have hpw : List.Pairwise (fun a b : FSTree => a.name ≠ b.name) cs := by
              have := namesNodup_pairwise hudir.1
              rw [List.pairwise_map] at this
              exact this
            have hpw2 : List.Pairwise (fun a b : FSTree => a.name ≠ b.name) (sortChildren cs) := by
              rw [List.Perm.pairwise_iff (fun h e => h e.symm) (sortChildren_perm cs)]
              exact hpw
            refine List.Pairwise.imp_of_mem ?_ hpw2
            intro c1 c2 hc1 hc2 hne x hx1 hx2
            rw [List.mem_map] at hx1 hx2
            obtain ⟨e1, he1, hx1e⟩ := hx1
            obtain ⟨e2, he2, hx2e⟩ := hx2
            have hsz1 : FSTree.size c1 ≤ N := by
              have := size_child_lt (n := n) (mem_sortChildren.mp hc1)
              omega
            have hsz2 : FSTree.size c2 ≤ N := by
              have := size_child_lt (n := n) (mem_sortChildren.mp hc2)
              omega
            obtain ⟨hp1, _, _, _⟩ := mem_travTree incl excl N c1 (rel ++ [c1.name]) (d+1) hsz1 e1 he1
            obtain ⟨hp2, _, _, _⟩ := mem_travTree incl excl N c2 (rel ++ [c2.name]) (d+1) hsz2 e2 he2
            rw [hx1e] at hp1
            rw [hx2e] at hp2
            exact hne (prefSnoc_eq hp1 hp2)

/-! ### No illegal depth jumps (claim C8, chain part) -/

theorem chainFlattenAux (D : Nat) : ∀ (Ls : List (List Entry)),
    (∀ l ∈ Ls, List.Chain' (fun a b => b.depth ≤ a.depth + 1) l) →
    (∀ l ∈ Ls, ∀ e ∈ l, D ≤ e.depth) →
    (∀ l ∈ Ls, ∀ h, l.head? = some h → h.depth = D) →
    List.Chain' (fun a b => b.depth ≤ a.depth + 1) Ls.flatten
      ∧ (∀ e ∈ Ls.flatten, D ≤ e.depth)
      ∧ (∀ h, Ls.flatten.head? = some h → h.depth = D) := by
  intro Ls
  induction Ls with
  | nil =>
    intro _ _ _
    refine ⟨List.chain'_nil, ?_, ?_⟩
    · intro e he; cases he
    · intro h hh; simp at hh
  | cons l ls ih =>
    intro hch hbd hhd
    have ih2 := ih (fun l' hl' => hch l' (List.mem_cons_of_mem _ hl'))
      (fun l' hl' => hbd l' (List.mem_cons_of_mem _ hl'))
      (fun l' hl' => hhd l' (List.mem_cons_of_mem _ hl'))
    obtain ⟨ihc, ihb, ihh⟩ := ih2
    simp only [List.flatten_cons]
    refine ⟨?_, ?_, ?_⟩
    · rw [List.chain'_append]
      refine ⟨hch l (List.mem_cons_self l ls), ihc, ?_⟩
      intro x hx y hy
      have hxm : x ∈ l := List.mem_of_getLast?_eq_some hx
      have hxd : D ≤ x.depth := hbd l (List.mem_cons_self l ls) x hxm
      have hyd : y.depth = D := ihh y hy
      omega
    · intro e he
      rcases List.mem_append.mp he with h1 | h1
      · exact hbd l (List.mem_cons_self l ls) e h1
      · exact ihb e h1
    · intro h hh
      cases l with
      | nil => exact ihh h (by simpa using hh)
      | cons a as =>
        have ha : a = h := by simpa using hh
        rw [← ha]
        exact hhd (a :: as) (List.mem_cons_self _ ls) a rfl

theorem travTree_chain (incl excl : Option String) : ∀ (N : Nat) (t : FSTree)
    (rel : List String) (d : Nat),
    FSTree.size t ≤ N →
    List.Chain' (fun a b => b.depth ≤ a.depth + 1) (travTree incl excl t rel d) := by
  intro N
  induction N with
  | zero =>
    intro t rel d hN
    have := size_pos t
    omega
  | succ N ih =>
    intro t rel d hN
    cases hm : matchesPattern t (relString rel) incl excl with
    | false => simp [travTree_neg hm]
    | true =>
      cases t with
      | file n c => simp [travTree_file_pos hm]
      | dir n cs =>
        rw [travTree_dir_pos hm]
        have haux := chainFlattenAux (d+1)
          ((sortChildren cs).map (fun c => travTree incl excl c (rel ++ [c.name]) (d + 1)))
          ?_ ?_ ?_
        · obtain ⟨hc, _, hh⟩ := haux
          rw [List.chain'_cons']
          refine ⟨?_, hc⟩
          intro y hy
          have := hh y hy
          show y.depth ≤ d + 1
          omega
        · intro l hl
          rw [List.mem_map] at hl
          obtain ⟨c, hc, hlc⟩ := hl
          subst hlc
          have hsz : FSTree.size c ≤ N := by
            have := size_child_lt (n := n) (mem_sortChildren.mp hc)
            omega
          exact ih c (rel ++ [c.name]) (d+1) hsz
        · intro l hl e he
          rw [List.mem_map] at hl
          obtain ⟨c, hc, hlc⟩ := hl
          subst hlc
          have hsz : FSTree.size c ≤ N := by
            have := size_child_lt (n := n) (mem_sortChildren.mp hc)
            omega
          obtain ⟨_, hd, _, _⟩ := mem_travTree incl excl N c (rel ++ [c.name]) (d+1) hsz e he
          exact hd
        · intro l hl h hh
          rw [List.mem_map] at hl
          obtain ⟨c, hc, hlc⟩ := hl
          subst hlc
          rcases travTree_shape incl excl c (rel ++ [c.name]) (d+1) with hsh | hsh
          · rw [hsh] at hh; simp at hh
          · rw [hsh] at hh
            have hc2 : (⟨c, rel ++ [c.name], d+1⟩ : Entry) = h := by simpa using hh
            rw [← hc2]

/-! ### Sibling ordering of the traversal output (claim C8, order part) -/

theorem pairwiseFlattenAux {α β : Type} (R : α → α → Prop) (S : β → β → Prop) :
    ∀ (L : List α) (g : α → List β),
    List.Pairwise R L →
    (∀ a ∈ L, List.Pairwise S (g a)) →
    (∀ a b, a ∈ L → b ∈ L → R a b → ∀ x ∈ g a, ∀ y ∈ g b, S x y) →
    List.Pairwise S ((L.map g).flatten) := by
  intro L g
  induction L with
  | nil => intro _ _ _; simp
  | cons a L ih =>
    intro hR hS hcross
    simp only [List.map_cons, List.flatten_cons]
    rw [List.pairwise_append]
    rcases hR with _ | ⟨hra, hrL⟩
    refine ⟨hS a (List.mem_cons_self _ _),
      ih hrL (fun b hb => hS b (List.mem_cons_of_mem _ hb))
        (fun b c hb hc => hcross b c (List.mem_cons_of_mem _ hb) (List.mem_cons_of_mem _ hc)), ?_⟩
    intro x hx y hy
    rw [List.mem_flatten] at hy
    obtain ⟨l, hl, hyl⟩ := hy
    rw [List.mem_map] at hl
    obtain ⟨b, hb, hlb⟩ := hl
    subst hlb
    exact hcross a b (List.mem_cons_self _ _) (List.mem_cons_of_mem _ hb) (hra b hb) x hx y hyl

theorem travTree_siblings (incl excl : Option String) : ∀ (N : Nat) (t : FSTree)
    (rel : List String) (d : Nat) (p : List String),
    FSTree.size t ≤ N → uniqNames t = true →
    List.Pairwise (fun a b => childLe a.node b.node = true)
      (childEntries (travTree incl excl t rel d) p) := by
  intro N
  induction N with
  | zero =>
    intro t rel d p hN
    have := size_pos t
    omega
  | succ N ih =>
    intro t rel d p hN huniq
    cases hm : matchesPattern t (relString rel) incl excl with
    | false => simp [travTree_neg hm, childEntries]
    | true =>
      cases t with
      | file n c =>
        rw [travTree_file_pos hm]
        exact List.Pairwise.sublist (List.filter_sublist _) (by simp)
      | dir n cs =>
        rw [travTree_dir_pos hm]
        unfold childEntries
        rw [List.filter_cons]
        have hchildlen : ∀ e ∈ ((sortChildren cs).map
            (fun c => travTree incl excl c (rel ++ [c.name]) (d + 1))).flatten,
            rel.length + 1 ≤ e.rel.length := by
          intro e he
          rw [List.mem_flatten] at he
          obtain ⟨l, hl, hel⟩ := he
          rw [List.mem_map] at hl
          obtain ⟨c, hc, hlc⟩ := hl
          subst hlc
          have hsz : FSTree.size c ≤ N := by
            have := size_child_lt (n := n) (mem_sortChildren.mp hc)
            omega
          obtain ⟨hpre, _, _, _⟩ := mem_travTree incl excl N c (rel ++ [c.name]) (d+1) hsz e hel
          have := prefixLengthLe hpre
          simpa using this
        by_cases hroot : ((⟨FSTree.dir n cs, rel, d⟩ : Entry).rel.length == p.length + 1
            && p.isPrefixOf (⟨FSTree.dir n cs, rel, d⟩ : Entry).rel) = true
        · rw [if_pos (by exact_mod_cast hroot)]
          simp only [Bool.and_eq_true, beq_iff_eq] at hroot
          have hlen : rel.length = p.length + 1 := hroot.1
          have hnilrest : List.filter
              (fun e => e.rel.length == p.length + 1 && p.isPrefixOf e.rel)
              (((sortChildren cs).map
                (fun c => travTree incl excl c (rel ++ [c.name]) (d + 1))).flatten) = [] := by
            rw [List.filter_eq_nil_iff]
            intro e he
            have := hchildlen e he
            simp only [Bool.and_eq_true, beq_iff_eq, not_and]
            intro hlene
            omega
          rw [hnilrest]
          simp
        · rw [if_neg (by exact_mod_cast hroot)]
          rw [List.filter_flatten, List.map_map]
          have hudir := huniq
          simp only [uniqNames, Bool.and_eq_true] at hudir
          have hpw : List.Pairwise (fun a b : FSTree => a.name ≠ b.name) (sortChildren cs) := by
            rw [List.Perm.pairwise_iff (fun h e => h e.symm) (sortChildren_perm cs)]
            have := namesNodup_pairwise hudir.1
            rw [List.pairwise_map] at this
            exact this
          have hsorted := sortChildren_sorted cs
          have hconj := hsorted.and hpw
          apply pairwiseFlattenAux (fun c1 c2 => childLeR c1 c2 ∧ c1.name ≠ c2.name) _ _ _ hconj
          · intro c hc
            have hsz : FSTree.size c ≤ N := by
              have := size_child_lt (n := n) (mem_sortChildren.mp hc)
              omega
            have huc : uniqNames c = true := uniqNamesList_mem hudir.2 (mem_sortChildren.mp hc)
            have := ih c (rel ++ [c.name]) (d+1) p hsz huc
            unfold childEntries at this
            exact this
          · intro a b ha hb hr x hx y hy
            simp only [Function.comp] at hx hy
            rw [List.mem_filter] at hx hy
            obtain ⟨hxmem, hxpred⟩ := hx
            obtain ⟨hymem, hypred⟩ := hy
            simp only [Bool.and_eq_true, beq_iff_eq, List.isPrefixOf_iff_prefix] at hxpred hypred
            have hsza : FSTree.size a ≤ N := by
              have := size_child_lt (n := n) (mem_sortChildren.mp ha)
              omega
            have hszb : FSTree.size b ≤ N := by
              have := size_child_lt (n := n) (mem_sortChildren.mp hb)
              omega
            obtain ⟨hpa, _, hlena, _⟩ := mem_travTree incl excl N a (rel ++ [a.name]) (d+1) hsza x hxmem
            obtain ⟨hpb, _, hlenb, _⟩ := mem_travTree incl excl N b (rel ++ [b.name]) (d+1) hszb y hymem
            by_cases hpr : p.length = rel.length
            · -- prefixes of equal length force p = rel and x, y to be the child root entries
              have hxa : x = ⟨a, rel ++ [a.name], d+1⟩ := by
                apply hlena
                have := prefixLengthLe hpa
                simp only [List.length_append, List.length_singleton] at this ⊢
                omega
              have hyb : y = ⟨b, rel ++ [b.name], d+1⟩ := by
                apply hlenb
                have := prefixLengthLe hpb
                simp only [List.length_append, List.length_singleton] at this ⊢
                omega
              rw [hxa, hyb]
              exact hr.1
            · -- p is strictly longer than rel: both child names agree with the
              -- segment of p at position rel.length, contradicting distinctness
              exfalso
              have hrelx : rel <+: x.rel := prefTrans (prefAppendRight rel [a.name]) hpa
              have hlelen : rel.length + 1 ≤ p.length := by
                have h1 := prefixLengthLe hpa
                simp only [List.length_append, List.length_singleton] at h1
                have h2 := hxpred.1
                omega
              have hap : (rel ++ [a.name]) <+: p :=
                prefOfPrefLen _ _ x.rel hpa hxpred.2 (by simp; omega)
              have hbp : (rel ++ [b.name]) <+: p :=
                prefOfPrefLen _ _ y.rel hpb hypred.2 (by simp; omega)
              exact hr.2 (prefSnoc_eq hap hbp)

/-! ### Uniqueness of the sorted sibling order when keys are distinct -/

theorem sortedPermEq : ∀ (l1 l2 : List FSTree), List.Perm l1 l2 →
    List.Pairwise childLeR l1 → List.Pairwise childLeR l2 →
    (∀ a ∈ l1, ∀ b ∈ l1, sortKey a = sortKey b → a = b) →
    l1 = l2 := by
  intro l1
  induction l1 with
  | nil =>
    intro l2 hp _ _ _
    rw [hp.symm.eq_nil]
  | cons a t1 ih =>
    intro l2 hp h1 h2 hinj
    cases l2 with
    | nil =>
      have := hp.eq_nil
      simp at this
    | cons b t2 =>
      have hab : a = b := by
        by_cases hab : a = b
        · exact hab
        · have hbmem : b ∈ a :: t1 := hp.mem_iff.mpr (List.mem_cons_self _ _)
          have hamem : a ∈ b :: t2 := hp.mem_iff.mp (List.mem_cons_self _ _)
          have hab1 : childLeR a b := by
            rcases List.mem_cons.mp hbmem with h | h
            · exact absurd h.symm hab
            · rcases h1 with _ | ⟨ha1, _⟩
              exact ha1 b h
          have hba1 : childLeR b a := by
            rcases List.mem_cons.mp hamem with h | h
            · exact absurd h hab
            · rcases h2 with _ | ⟨hb1, _⟩
              exact hb1 a h
          have hkey : sortKey a = sortKey b :=
            keyLe_antisymm (sortKey a) (sortKey b) hab1 hba1
          exact hinj a (List.mem_cons_self _ _) b hbmem hkey
      subst hab
      have hp' : List.Perm t1 t2 := List.Perm.cons_inv hp
      rcases h1 with _ | ⟨_, ht1⟩
      rcases h2 with _ | ⟨_, ht2⟩
      rw [ih t2 hp' ht1 ht2
        (fun x hx y hy => hinj x (List.mem_cons_of_mem _ hx) y (List.mem_cons_of_mem _ hy))]

theorem sortChildren_perm_invariant (cs1 cs2 : List FSTree)
    (hp : List.Perm cs1 cs2)
    (hinj : ∀ a ∈ cs1, ∀ b ∈ cs1, sortKey a = sortKey b → a = b) :
    sortChildren cs1 = sortChildren cs2 := by
  apply sortedPermEq
  · exact (sortChildren_perm cs1).trans (hp.trans (sortChildren_perm cs2).symm)
  · exact sortChildren_sorted cs1
  · exact sortChildren_sorted cs2
  · intro a ha b hb
    exact hinj a (mem_sortChildren.mp ha) b (mem_sortChildren.mp hb)

/-! ### An empty exclude expression rejects nothing (claim C5 core) -/

theorem matchesPattern_some_empty (t : FSTree) (relPath : String) (incl : Option String) :
    matchesPattern t relPath incl (some "") = matchesPattern t relPath incl none := by
  simp [matchesPattern, truthy]

theorem travGo_some_empty (incl : Option String) : ∀ (f : Nat) (st : List (FSTree × List String × Nat)),
    travGo incl (some "") f st = travGo incl none f st := by
  intro f
  induction f with
  | zero => intro st; rfl
  | succ f ih =>
    intro st
    cases st with
    | nil => rfl
    | cons x rest =>
      obtain ⟨t, rel, d⟩ := x
      simp only [travGo, matchesPattern_some_empty]
      cases hm : matchesPattern t (relString rel) incl none with
      | false => simp [hm, ih]
      | true => cases t <;> simp [hm, ih]

theorem traverseDfs_some_empty (t : FSTree) (incl : Option String) :
    traverseDirectoryDfs t incl (some "") = traverseDirectoryDfs t incl none := by
  unfold traverseDirectoryDfs
  exact travGo_some_empty incl (FSTree.size t) [(t, [], 0)]

theorem generate_gitignore_trivial (root : FSTree) (onlyPaths : Option (List String))
    (inclP : Option String) (ml : Option Nat) (cc : Bool)
    (h : (parseGitignoreLines (collectGitignoreLines root)).filterMap convertGitignoreToRegex = []) :
    generateCattree root onlyPaths inclP none true ml cc
      = generateCattree root onlyPaths inclP none false ml cc := by
  have hg : buildGitignoreRegex root = "" := by
    unfold buildGitignoreRegex buildGitignoreRegexFromPatterns
    rw [h]
    rfl
  simp only [generateCattree, hg]
  rw [show combineExclude none "" = "" from rfl]
  rw [show (if True then some "" else (none : Option String)) = some "" from rfl]
  rw [show (if false = true then some "" else (none : Option String)) = none from rfl]
  rw [traverseDfs_some_empty]

/-! ### The rendering loop -/

theorem renderLoop_skip_root (root : FSTree) (onlySet : Option (List (List String)))
    (ml : Option Nat) (cc : Bool) (t : FSTree) (rel : List String) (es : List Entry) :
    renderLoop root onlySet ml cc (⟨t, rel, 0⟩ :: es) = renderLoop root onlySet ml cc es := by
  simp [renderLoop]

theorem renderLoop_ok_readable (root : FSTree) (onlySet : Option (List (List String)))
    (ml : Option Nat) (cc : Bool) : ∀ (entries : List Entry) (res : List String × List String),
    renderLoop root onlySet ml cc entries = .ok res →
    entries.all (fun e => e.depth == 0 || skippedByOnly onlySet root e || !(isUnreadableFile e.node)) = true := by
  intro entries
  induction entries with
  | nil => intro res _; rfl
  | cons e es ih =>
    intro res hok
    obtain ⟨nd, erel, edep⟩ := e
    rw [List.all_cons]
    by_cases hd : edep = 0
    · subst hd
      rw [renderLoop_skip_root] at hok
      have hall := ih res hok
      rw [hall, Bool.and_true]
      simp
    · simp only [renderLoop] at hok
      rw [if_neg (by exact hd)] at hok
      cases hs : skippedByOnly onlySet root ⟨nd, erel, edep⟩ with
      | true =>
        rw [hs] at hok
        simp only [if_true] at hok
        have hall := ih res hok
        rw [hall, Bool.and_true]
        simp
      | false =>
        rw [hs] at hok
        simp only [Bool.false_eq_true, if_false] at hok
        cases nd with
        | file n c =>
          cases c with
          | none =>
            exfalso
            simp [formatFileContent] at hok
          | some lines =>
            cases hrec : renderLoop root onlySet ml cc es with
            | error msg =>
              exfalso
              rw [hrec] at hok
              simp [formatFileContent] at hok
            | ok val =>
              rw [hrec] at hok
              have hall := ih val hrec
              rw [hall, Bool.and_true]
              simp [isUnreadableFile]
        | dir n cs =>
          cases hrec : renderLoop root onlySet ml cc es with
          | error msg =>
            exfalso
            rw [hrec] at hok
            simp at hok
          | ok val =>
            rw [hrec] at hok
            have hall := ih val hrec
            rw [hall, Bool.and_true]
            simp [isUnreadableFile]

theorem renderLoop_tree_lines (root : FSTree) (onlySet : Option (List (List String)))
    (ml : Option Nat) (cc : Bool) : ∀ (entries : List Entry) (res : List String × List String),
    renderLoop root onlySet ml cc entries = .ok res →
    res.1 = (entries.filter
        (fun e => !(e.depth == 0) && !(skippedByOnly onlySet root e))).map treeLineFor := by
  intro entries
  induction entries with
  | nil =>
    intro res hok
    simp only [renderLoop] at hok
    cases hok
    rfl
  | cons e es ih =>
    intro res hok
    obtain ⟨nd, erel, edep⟩ := e
    rw [List.filter_cons]
    by_cases hd : edep = 0
    · subst hd
      rw [renderLoop_skip_root] at hok
      have hrest := ih res hok
      simp [hrest]
    · have hdb : ((⟨nd, erel, edep⟩ : Entry).depth == 0) = false := by simpa using hd
      simp only [renderLoop] at hok
      rw [if_neg (by exact hd)] at hok
      cases hs : skippedByOnly onlySet root ⟨nd, erel, edep⟩ with
      | true =>
        rw [hs] at hok
        simp only [if_true] at hok
        have hrest := ih res hok
        rw [hdb]
        simp [hrest]
      | false =>
        rw [hs] at hok
        simp only [Bool.false_eq_true, if_false] at hok
        rw [hdb]
        cases nd with
        | file n c =>
          cases c with
          | none =>
            exfalso
            simp [formatFileContent] at hok
          | some lines =>
            cases hrec : renderLoop root onlySet ml cc es with
            | error msg =>
              exfalso
              rw [hrec] at hok
              simp [formatFileContent] at hok
            | ok val =>
              obtain ⟨ls, cs2⟩ := val
              rw [hrec] at hok
              simp only [formatFileContent] at hok
              injection hok with hres
              rw [← hres]
              have hrest := ih (ls, cs2) hrec
              simp at hrest
              simp [hrest]
        | dir n cs =>
          cases hrec : renderLoop root onlySet ml cc es with
          | error msg =>
            exfalso
            rw [hrec] at hok
            simp at hok
          | ok val =>
            obtain ⟨ls, cs2⟩ := val
            rw [hrec] at hok
            simp only [renderLoop] at hok
            simp at hok
            have hrest := ih (ls, cs2) hrec
            simp at hrest
            simp [hrest, ← hok]

/-! ## Claim theorems -/

/-- Claim C1, counterexample: for a root containing a file that cannot
be decoded as text (`bad.py` with undecodable bytes) next to a readable
file, `generate_cattree` does not report the file inline and return the
output text — the whole call aborts with the `ValueError` raised by
`format_file_content`, and no output is returned. -/
theorem C1_counterexample :
    generateCattree exTreeC1 none none none false none false
      = .error "Failed to read file r/bad.py"
    ∧ (generateCattree exTreeC1 none none none false none false).isOk = false :=
  ⟨rfl, rfl⟩

/-- Claim C1, amended: an undecodable file is not isolated at file
granularity.  The rendering loop returns output only when every
rendered (non-root, not only-paths-skipped) entry is a readable file or
a directory; reaching an undecodable file raises a `ValueError` that
aborts the whole `generate_cattree` call (the CLI prints it), so a call
that returns output has rendered no undecodable file. -/
theorem C1_theorem :
    (∀ (root : FSTree) (onlySet : Option (List (List String))) (ml : Option Nat) (cc : Bool)
      (entries : List Entry) (res : List String × List String),
      renderLoop root onlySet ml cc entries = .ok res →
      entries.all (fun e => e.depth == 0 || skippedByOnly onlySet root e
        || !(isUnreadableFile e.node)) = true)
    ∧ (∀ (root : FSTree) (inclP exclP : Option String) (ml : Option Nat) (cc : Bool) (out : String),
      generateCattree root none inclP exclP false ml cc = .ok out →
      (traverseDirectoryDfs root inclP exclP).all
        (fun e => e.depth == 0 || !(isUnreadableFile e.node)) = true) := by
  constructor
  · exact renderLoop_ok_readable
  · intro root inclP exclP ml cc out hok
    simp only [generateCattree] at hok
    rw [show (if (none : Option (List (List String))).isSome = true then none else inclP)
        = inclP from rfl,
      show (if false = true then some (combineExclude exclP (buildGitignoreRegex root)) else exclP)
        = exclP from rfl] at hok
    by_cases hdir : root.isDir = false
    · rw [if_pos hdir] at hok
      cases hok
    · rw [if_neg hdir] at hok
      cases hrl : renderLoop root none ml cc (traverseDirectoryDfs root inclP exclP) with
      | error msg => rw [hrl] at hok; cases hok
      | ok val =>
        have hall := renderLoop_ok_readable root none ml cc _ val hrl
        rw [List.all_eq_true] at hall ⊢
        intro e he
        have := hall e he
        simpa [skippedByOnly] using this

/-- Witness for C1: a call on a fully readable tree returns output, and
the theorem then certifies that every rendered entry was readable. -/
theorem C1_witness :
    (traverseDirectoryDfs exTreeC2 none none).all
      (fun e => e.depth == 0 || skippedByOnly none exTreeC2 e || !(isUnreadableFile e.node)) = true :=
  C1_theorem.1 exTreeC2 none none false (traverseDirectoryDfs exTreeC2 none none)
    (["├── src", "    └── a.py"], ["", "src/a.py:\nx\n"]) rfl

/-- Claim C2, counterexample: with `onlyPaths = {"src/a.py"}` and the
exclude pattern `a\.py`, the candidate `src/a.py` is admitted by the
only-paths rule (`_is_path_allowed` accepts it) yet the filter rejects
it through the exclude pattern, and the rendered output omits it: the
exclude rule is not skipped when only-paths is active. -/
theorem C2_counterexample :
    isPathAllowed ["src", "a.py"] [["src", "a.py"]] exTreeC2 = true
    ∧ matchesPattern (.file "a.py" (some ["x\n"])) "src/a.py" none (some "a\\.py") = false
    ∧ generateCattree exTreeC2 (some ["src/a.py"]) none (some "a\\.py") false none false
        = .ok "r\n├── src\n" :=
  ⟨rfl, rfl, rfl⟩

/-- Claim C2, amended: a non-empty only-paths list disables only the
include pattern (rule 5); the exclude pattern still applies during
traversal before the only-paths check, so a candidate admitted by the
only-paths rule can still be rejected by the exclude pattern. -/
theorem C2_theorem :
    (∀ (root : FSTree) (p : String) (ps : List String) (inclP exclP : Option String)
      (gi : Bool) (ml : Option Nat) (cc : Bool),
      generateCattree root (some (p :: ps)) inclP exclP gi ml cc
        = generateCattree root (some (p :: ps)) none exclP gi ml cc)
    ∧ isPathAllowed ["src", "a.py"] [["src", "a.py"]] exTreeC2 = true
    ∧ matchesPattern (.file "a.py" (some ["x\n"])) "src/a.py" none (some "a\\.py") = false := by
  refine ⟨?_, rfl, rfl⟩
  intro root p ps inclP exclP gi ml cc
  rfl

/-- Claim C3, counterexample: a root directory whose own name starts
with a dot is rejected by the blacklist applied to its own name, so the
traversal yields nothing at all — the root is not always yielded at
depth 0.  The renderer still prints the root label line. -/
theorem C3_counterexample :
    matchesPattern exTreeC3 "." none none = false
    ∧ traverseDirectoryDfs exTreeC3 none none = []
    ∧ generateCattree exTreeC3 none none none false none false = .ok ".hidden\n" :=
  ⟨rfl, rfl, rfl⟩

/-- Claim C3, amended: the root is yielded at depth 0 iff it passes the
name-based filter on its own name (with relative path `"."`); when it
fails the filter, nothing is yielded.  The renderer always suppresses
the depth-0 entry and uses the root name only as the tree's label. -/
theorem C3_theorem :
    (∀ (t : FSTree) (inclP exclP : Option String),
      matchesPattern t "." inclP exclP = false → traverseDirectoryDfs t inclP exclP = [])
    ∧ (∀ (t : FSTree) (inclP exclP : Option String),
      matchesPattern t "." inclP exclP = true →
      (traverseDirectoryDfs t inclP exclP).head? = some ⟨t, [], 0⟩)
    ∧ (∀ (root : FSTree) (onlySet : Option (List (List String))) (ml : Option Nat) (cc : Bool)
      (t : FSTree) (rel : List String) (es : List Entry),
      renderLoop root onlySet ml cc (⟨t, rel, 0⟩ :: es) = renderLoop root onlySet ml cc es) := by
  refine ⟨?_, ?_, ?_⟩
  · intro t inclP exclP h
    rw [traverseDfs_eq_travTree]
    exact travTree_neg (by exact h)
  · intro t inclP exclP h
    rw [traverseDfs_eq_travTree]
    cases t with
    | file n c => rw [travTree_file_pos (by exact h)]; rfl
    | dir n cs => rw [travTree_dir_pos (by exact h)]; rfl
  · intro root onlySet ml cc t rel es
    exact renderLoop_skip_root root onlySet ml cc t rel es

/-- Witness for C3: the blacklisted root `.hidden` yields nothing; an
accepted root `r` is yielded first at depth 0. -/
theorem C3_witness :
    traverseDirectoryDfs exTreeC3 none none = []
    ∧ (traverseDirectoryDfs exTreeC2 none none).head? = some ⟨exTreeC2, [], 0⟩ :=
  ⟨C3_theorem.1 exTreeC3 none none rfl, C3_theorem.2.1 exTreeC2 none none rfl⟩

/-- Claim C4 (code bug): evaluating `format_file_content` at the
failing input — `max_lines = 2` and a file of exactly 2 lines — shows
the ellipsis marker is appended even though nothing was truncated,
contradicting the claim, the spec and the function's own docstring
("with `...` appended if truncated").  The 5-line case and the
shorter-than-cap case behave as claimed. -/
theorem C4_theorem :
    formatFileContent "r/f.py" "f.py" (some ["a\n", "b\n"]) (some 2) false
      = .ok "f.py:\na\nb\n..."
    ∧ formatFileContent "r/f.py" "f.py" (some ["1\n", "2\n", "3\n", "4\n", "5\n"]) (some 2) false
      = .ok "f.py:\n1\n2\n..."
    ∧ formatFileContent "r/f.py" "f.py" (some ["a\n"]) (some 2) false = .ok "f.py:\na\n" :=
  ⟨rfl, rfl, rfl⟩

/-- Claim C5: when every gitignore line is dropped or compiles to null,
the builder returns the empty expression, the exclude combination is
the empty string — which is falsy, so the exclude rule rejects no path
— and the whole call behaves exactly as with gitignore disabled. -/
theorem C5_theorem (root : FSTree) (onlyPaths : Option (List String)) (inclP : Option String)
    (ml : Option Nat) (cc : Bool)
    (h : (parseGitignoreLines (collectGitignoreLines root)).filterMap convertGitignoreToRegex = []) :
    buildGitignoreRegex root = ""
    ∧ combineExclude none (buildGitignoreRegex root) = ""
    ∧ (∀ (t : FSTree) (relPath : String),
        matchesPattern t relPath inclP (some "") = matchesPattern t relPath inclP none)
    ∧ generateCattree root onlyPaths inclP none true ml cc
        = generateCattree root onlyPaths inclP none false ml cc := by
  have hg : buildGitignoreRegex root = "" := by
    unfold buildGitignoreRegex buildGitignoreRegexFromPatterns
    rw [h]
    rfl
  exact ⟨hg, by rw [hg]; rfl, fun t r => matchesPattern_some_empty t r inclP,
    generate_gitignore_trivial root onlyPaths inclP ml cc h⟩

/-- Witness for C5: a gitignore holding only a comment, a blank line
and `*` compiles to the empty set, and the call equals the
gitignore-disabled call. -/
theorem C5_witness :
    (parseGitignoreLines (collectGitignoreLines exTreeC5)).filterMap convertGitignoreToRegex = []
    ∧ generateCattree exTreeC5 none none none true none false
        = generateCattree exTreeC5 none none none false none false :=
  ⟨rfl, (C5_theorem exTreeC5 none none none false rfl).2.2.2⟩

/-- Claim C6: the compiler reproduces gitignore directionality.
`build/` compiles to `(^|/)build(/.*)?$`, which matches the relative
path `build/output.o` but not `nbuild/x`; `/dist` compiles to `^dist$`,
which matches `dist` but not `src/dist`; `*` and `**` compile to null
and are dropped from the combined expression. -/
theorem C6_theorem :
    convertGitignoreToRegex "build/" = some "(^|/)build(/.*)?$"
    ∧ reSearch ((convertGitignoreToRegex "build/").getD "") "build/output.o" = true
    ∧ reSearch ((convertGitignoreToRegex "build/").getD "") "nbuild/x" = false
    ∧ convertGitignoreToRegex "/dist" = some "^dist$"
    ∧ reSearch ((convertGitignoreToRegex "/dist").getD "") "dist" = true
    ∧ reSearch ((convertGitignoreToRegex "/dist").getD "") "src/dist" = false
    ∧ convertGitignoreToRegex "*" = none
    ∧ convertGitignoreToRegex "**" = none
    ∧ buildGitignoreRegexFromPatterns ["*", "build/", "**"] = "(^|/)build(/.*)?$" :=
  ⟨rfl, rfl, rfl, rfl, rfl, rfl, rfl, rfl, rfl⟩

/-- Claim C7: a directory (or file) rejected by the filter is a true
subtree prune.  If the node at path `p` is rejected, no traversal entry
lies at or below `p`; a rejected node contributes no entries at all,
and the stack loop simply continues with the remaining (sibling) stack
items. -/
theorem C7_theorem (t : FSTree) (inclP exclP : Option String) (p : List String) (sub : FSTree)
    (huniq : uniqNames t = true) (hnode : nodeAt p t = some sub)
    (hrej : matchesPattern sub (relString p) inclP exclP = false) :
    (traverseDirectoryDfs t inclP exclP).all (fun e => !(p.isPrefixOf e.rel)) = true
    ∧ (∀ (rel : List String) (d : Nat),
        matchesPattern sub (relString rel) inclP exclP = false →
        travTree inclP exclP sub rel d = [])
    ∧ (∀ (x : FSTree) (rel : List String) (d f : Nat)
        (rest : List (FSTree × List String × Nat)),
        matchesPattern x (relString rel) inclP exclP = false →
        travGo inclP exclP (f+1) ((x, rel, d) :: rest) = travGo inclP exclP f rest) := by
  refine ⟨?_, fun rel d h => travTree_neg h, ?_⟩
  · rw [List.all_eq_true]
    intro e he
    rw [traverseDfs_eq_travTree] at he
    have hnp := prune_aux inclP exclP (FSTree.size t) t [] 0 p sub (le_refl _) huniq hnode
      (by simpa using hrej) e he
    simp only [List.nil_append] at hnp
    simp only [Bool.not_eq_true']
    rw [← Bool.not_eq_true]
    intro hb
    have hbp : p <+: e.rel := List.isPrefixOf_iff_prefix.mp hb
    exact hnp hbp
  · intro x rel d f rest h
    cases x <;> simp [travGo, h]

/-- Witness for C7: in a tree whose `.git` directory is blacklisted, no
yielded entry lies at or below `.git`. -/
theorem C7_witness :
    uniqNames exTreeC7 = true
    ∧ (traverseDirectoryDfs exTreeC7 none none).all
        (fun e => !(List.isPrefixOf [".git"] e.rel)) = true :=
  ⟨rfl, (C7_theorem exTreeC7 none none [".git"] (.dir ".git" [.file "c.py" (some [])])
      rfl rfl rfl).1⟩

/-- Claim C8, counterexample: two roots whose children are the same two
files `A.py` and `a.py` in opposite listing orders.  Their sort keys
tie (same type, same lower-cased name), the stable sort keeps the
listing order, and the two traversals differ — the output order is not
independent of the file system's native listing order. -/
theorem C8_counterexample :
    List.Perm exChildrenA exChildrenB
    ∧ (traverseDirectoryDfs exTreeC8a none none).map Entry.rel
        ≠ (traverseDirectoryDfs exTreeC8b none none).map Entry.rel := by
  constructor
  · exact List.Perm.swap _ _ _
  · decide

/-- Claim C8, amended: on trees with pairwise-distinct sibling names,
the traversal yields each entry at most once and never jumps depth
illegally (each entry's depth is at most one more than its
predecessor's); the direct children of any directory appear sorted by
the two-part key (directories before files, then case-insensitive
name); and the sorted sibling order is independent of the native
listing order provided no two siblings share a sort key — with tied
keys the stable sort preserves the listing order. -/
theorem C8_theorem :
    (∀ (t : FSTree) (inclP exclP : Option String), uniqNames t = true →
      ((traverseDirectoryDfs t inclP exclP).map Entry.rel).Nodup)
    ∧ (∀ (t : FSTree) (inclP exclP : Option String),
      List.Chain' (fun a b => b.depth ≤ a.depth + 1) (traverseDirectoryDfs t inclP exclP))
    ∧ (∀ (t : FSTree) (inclP exclP : Option String) (p : List String), uniqNames t = true →
      List.Pairwise (fun a b => childLe a.node b.node = true)
        (childEntries (traverseDirectoryDfs t inclP exclP) p))
    ∧ (∀ (cs1 cs2 : List FSTree), List.Perm cs1 cs2 →
      (∀ a ∈ cs1, ∀ b ∈ cs1, sortKey a = sortKey b → a = b) →
      sortChildren cs1 = sortChildren cs2) := by
  refine ⟨?_, ?_, ?_, sortChildren_perm_invariant⟩
  · intro t inclP exclP h
    rw [traverseDfs_eq_travTree]
    exact travTree_rel_nodup inclP exclP (FSTree.size t) t [] 0 (le_refl _) h
  · intro t inclP exclP
    rw [traverseDfs_eq_travTree]
    exact travTree_chain inclP exclP (FSTree.size t) t [] 0 (le_refl _)
  · intro t inclP exclP p h
    rw [traverseDfs_eq_travTree]
    exact travTree_siblings inclP exclP (FSTree.size t) t [] 0 p (le_refl _) h

/-- Witness for C8: the guarantees instantiated on a concrete tree, and
order-independence of the sort on two key-distinct children lists. -/
theorem C8_witness :
    uniqNames exTreeC7 = true
    ∧ ((traverseDirectoryDfs exTreeC7 none none).map Entry.rel).Nodup
    ∧ List.Chain' (fun a b => b.depth ≤ a.depth + 1) (traverseDirectoryDfs exTreeC7 none none)
    ∧ List.Pairwise (fun a b => childLe a.node b.node = true)
        (childEntries (traverseDirectoryDfs exTreeC7 none none) [])
    ∧ sortChildren [FSTree.file "b.py" (some []), FSTree.dir "sub" []]
        = sortChildren [FSTree.dir "sub" [], FSTree.file "b.py" (some [])] := by
  have hinj : ∀ a ∈ [FSTree.file "b.py" (some []), FSTree.dir "sub" []],
      ∀ b ∈ [FSTree.file "b.py" (some []), FSTree.dir "sub" []],
      sortKey a = sortKey b → a = b := by
    intro a ha b hb hk
    fin_cases ha <;> fin_cases hb <;> first
      | rfl
      | (exfalso; simp [sortKey, lowerName, FSTree.isFile, FSTree.name] at hk)
  exact ⟨rfl, C8_theorem.1 exTreeC7 none none rfl, C8_theorem.2.1 exTreeC7 none none,
    C8_theorem.2.2.1 exTreeC7 none none [] rfl,
    C8_theorem.2.2.2 _ _ (List.Perm.swap _ _ _) hinj⟩

/-- Claim C9: because the exclude rule tests the base name as well as
the relative path, any candidate whose base name matches a non-empty
exclude expression is rejected wherever it sits; in particular the
compiled root-anchored pattern `/dist` (regex `^dist$`) rejects the
nested `src/dist` through its base name. -/
theorem C9_theorem :
    (∀ (t : FSTree) (relPath : String) (inclP : Option String) (s : String),
      s ≠ "" → reSearch s t.name = true →
      matchesPattern t relPath inclP (some s) = false)
    ∧ convertGitignoreToRegex "/dist" = some "^dist$"
    ∧ reSearch "^dist$" (FSTree.name (.dir "dist" [])) = true
    ∧ matchesPattern (.dir "dist" []) "src/dist" none (some "^dist$") = false := by
  refine ⟨?_, rfl, rfl, rfl⟩
  intro t relPath inclP s hs hsearch
  unfold matchesPattern
  simp only [Option.getD_some]
  have ht : truthy (some s) = true := by simp [truthy, hs]
  rw [ht]
  simp [hsearch]

/-- Witness for C9: the compiled `/dist` expression rejects a `dist`
node presented with an unrelated nested relative path. -/
theorem C9_witness :
    matchesPattern (.dir "dist" []) "a/b/dist" none (some "^dist$") = false :=
  C9_theorem.1 (.dir "dist" []) "a/b/dist" none "^dist$" (by decide) rfl

/-- Claim C10: the connector glyph of every rendered non-root line is
determined solely by the node's type: the tree lines are exactly
`treeLineFor` of the kept entries, where a directory always receives
the interior glyph and a file always the last-sibling glyph, regardless
of sibling position — a last-sibling directory (`sub`) still gets
`├── `, and a non-last file (`A.py`) still gets `└── `. -/
theorem C10_theorem :
    (∀ (root : FSTree) (onlySet : Option (List (List String))) (ml : Option Nat) (cc : Bool)
      (entries : List Entry) (res : List String × List String),
      renderLoop root onlySet ml cc entries = .ok res →
      res.1 = (entries.filter (fun e => !(e.depth == 0)
        && !(skippedByOnly onlySet root e))).map treeLineFor)
    ∧ (∀ e : Entry, e.node.isDir = true →
      treeLineFor e = String.mk (List.replicate (4 * (e.depth - 1)) ' ') ++ "├── " ++ e.node.name)
    ∧ (∀ e : Entry, e.node.isFile = true →
      treeLineFor e = String.mk (List.replicate (4 * (e.depth - 1)) ' ') ++ "└── " ++ e.node.name)
    ∧ renderLoop exTreeC10 none none false (traverseDirectoryDfs exTreeC10 none none)
        = .ok (["├── sub", "    └── b.py"], ["", "sub/b.py:\ny\n"])
    ∧ renderLoop exTreeC8a none none false (traverseDirectoryDfs exTreeC8a none none)
        = .ok (["└── A.py", "└── a.py"], ["A.py:\n", "a.py:\n"]) := by
  refine ⟨renderLoop_tree_lines, ?_, ?_, rfl, rfl⟩
  · intro e h
    simp [treeLineFor, h, interiorConnector]
  · intro e h
    have hd : e.node.isDir = false := by
      cases hn : e.node with
      | file n c => rfl
      | dir n cs => rw [hn] at h; cases h
    simp [treeLineFor, hd, leafConnector]

/-- Witness for C10: the tree-lines equation instantiated on a concrete
rendering. -/
theorem C10_witness :
    (["├── sub", "    └── b.py"], ["", "sub/b.py:\ny\n"]).1
      = ((traverseDirectoryDfs exTreeC10 none none).filter
          (fun e => !(e.depth == 0) && !(skippedByOnly none exTreeC10 e))).map treeLineFor :=
  C10_theorem.1 exTreeC10 none none false (traverseDirectoryDfs exTreeC10 none none)
    (["├── sub", "    └── b.py"], ["", "sub/b.py:\ny\n"]) rfl
